import Mathlib

/-!
Shallow embedding of the speki-core recall/stability model and the
dependency-aware card cache (TBS1996/speki-core), together with theorems
settling the frozen claims about them.

Conventions of the embedding:
* `std::time::Duration` values (unix timestamps, elapsed times, stabilities)
  are embedded as rationals (`ℚ`), in seconds.  The source's `f32`
  arithmetic (`mul_f32`, `as_secs_f32`, …) is abstracted to exact rational
  arithmetic; the literals `0.1`, `0.25`, `2.0`, `3.0`, `0.9` become the
  exact rationals they denote.
* The recall-rate value (`f32` in the source) is embedded as a real number,
  since the formula uses `ln` and `exp`.
* Reads of the global clock (`current_time()`) become an explicit `now`
  parameter.
* `CardId` (a 128-bit uuid) is embedded as `ℕ`; file paths likewise.
* The card store / filesystem that the cache reads from is embedded as an
  association list, and fallible or possibly-nonterminating operations
  return `Option`, with recursion depth made explicit by a fuel parameter.
-/

namespace Speki

/-- Recall grade of one review event (src/reviews.rs, `Grade`). -/
inductive Grade where
  | none
  | late
  | some
  | perfect
deriving DecidableEq, Repr

/-- `Grade::get_factor` (src/reviews.rs): None=0.1, Late=0.25, Some=2.0,
Perfect=3.0, as exact rationals. -/
def Grade.get_factor : Grade → ℚ
  | Grade.none => 1/10
  | Grade.late => 1/4
  | Grade.some => 2
  | Grade.perfect => 3

/-- One review event (src/reviews.rs, `Review`); `timestamp` is unix time in
seconds, `time_spent` the time spent before recall. -/
structure Review where
  timestamp : ℚ
  grade : Grade
  time_spent : ℚ
deriving DecidableEq, Repr

/-- `Review::time_passed` (src/reviews.rs): elapsed time since the review at
clock value `now`; `checked_sub(..).unwrap_or_default()` clamps a
future timestamp to zero elapsed. -/
def Review.time_passed (r : Review) (now : ℚ) : ℚ :=
  if now < r.timestamp then 0 else now - r.timestamp

/-- `Reviews::lapses` (src/reviews.rs): left fold that counts failed grades
and resets to zero on any successful grade. -/
def lapses (reviews : List Review) : ℕ :=
  reviews.foldl
    (fun l r =>
      match r.grade with
      | Grade.none | Grade.late => l + 1
      | Grade.some | Grade.perfect => 0)
    0

/-- Whether a grade encodes a failed recall (factor below one). -/
def Grade.isFail : Grade → Bool
  | Grade.none => true
  | Grade.late => true
  | Grade.some => false
  | Grade.perfect => false

/-- Specification value for claim C10: the length of the trailing run of
failed reviews (count of consecutive failures since the last success). -/
def trailingLapses (reviews : List Review) : ℕ :=
  (reviews.reverse.takeWhile (fun r => r.grade.isFail)).length

/-- `Reviews::time_since_last_review` (src/reviews.rs): elapsed time since
the last review in the log, at clock value `now`. -/
def time_since_last_review (reviews : List Review) (now : ℚ) : Option ℚ :=
  reviews.getLast?.map (fun r => r.time_passed now)

/-- `new_stability` (src/recall_rate.rs lines 8-31).  A missing elapsed time
defaults to one day (86400 s).  A failing grade (factor < 1) shrinks the
stability to `min(elapsed, current) * factor`; a successful grade adopts
`elapsed * factor` when that exceeds the current stability and otherwise
applies the interpolated boost
`current + current * (elapsed / current * factor)`. -/
def new_stability (grade : Grade) (time_passed : Option ℚ) (current_stability : ℚ) : ℚ :=
  let grade_factor := grade.get_factor
  let tp := time_passed.getD 86400
  if grade_factor < 1 then
    min tp current_stability * grade_factor
  else
    let alternative_stability := tp * grade_factor
    if alternative_stability > current_stability then
      alternative_stability
    else
      current_stability + current_stability * (tp / current_stability * grade_factor)

/-- The loop of `stability` (src/recall_rate.rs lines 42-49): fold the
remaining reviews, failing with `none` as soon as a review's timestamp is
strictly smaller than its predecessor's. -/
def stabilityGo (cur : ℚ) (prev : ℚ) : List Review → Option ℚ
  | [] => Option.some cur
  | r :: rs =>
    if prev > r.timestamp then Option.none
    else stabilityGo (new_stability r.grade (Option.some (r.timestamp - prev)) cur) r.timestamp rs

/-- `stability` (src/recall_rate.rs lines 33-52): `none` on the empty log,
otherwise seeded with `new_stability(first.grade, None, 1 day)` and folded
over the remaining reviews. -/
def stability : List Review → Option ℚ
  | [] => Option.none
  | r :: rs => stabilityGo (new_stability r.grade Option.none 86400) r.timestamp rs

/-- `calculate_recall_rate` (src/recall_rate.rs lines 60-64):
`exp(ln(0.9) * (elapsed / stability))`. -/
noncomputable def calculate_recall_rate (days_passed : ℚ) (stab : ℚ) : ℝ :=
  Real.exp (Real.log (9/10) * ((days_passed : ℝ) / (stab : ℝ)))

/-- `recall_rate` (src/recall_rate.rs lines 54-58), with the clock passed
explicitly. -/
noncomputable def recall_rate (reviews : List Review) (now : ℚ) : Option ℝ := do
  let days_passed ← time_since_last_review reviews now
  let stab ← stability reviews
  pure (calculate_recall_rate days_passed stab)

/-- Claim C1: for the review log [(t=0, grade None), (t=86400, grade Perfect)]
the stability after the first event is 0.1 day = 8640 s (the 1-day seed times
the None factor 0.1), and the final stability is 3 days = 259200 s (elapsed
1 day exceeds the current 0.1-day stability, and the candidate
1 day * 3.0 = 3 days exceeds it as well, so it is adopted). -/
theorem stability_example_one_fail_one_pass :
    stability [⟨0, Grade.none, 0⟩] = Option.some (8640 : ℚ) ∧
    stability [⟨0, Grade.none, 0⟩, ⟨86400, Grade.perfect, 0⟩] = Option.some (259200 : ℚ) := by
  constructor <;> norm_num [stability, stabilityGo, new_stability, Grade.get_factor, min_def]

/-- Claim C10: `lapses` equals the length of the trailing run of failed
reviews: any successful review resets the count, so only the consecutive
failures after the most recent success are counted. -/
theorem lapses_eq_trailingLapses (reviews : List Review) :
    lapses reviews = trailingLapses reviews := by
  induction reviews using List.reverseRecOn with
  | nil => rfl
  | append_singleton l a ih =>
    have hfold :
        lapses (l ++ [a]) =
          match a.grade with
          | Grade.none | Grade.late => lapses l + 1
          | Grade.some | Grade.perfect => 0 := by
      simp [lapses, List.foldl_append]
    have htrail :
        trailingLapses (l ++ [a]) =
          if a.grade.isFail then trailingLapses l + 1 else 0 := by
      simp only [trailingLapses, List.reverse_append, List.reverse_cons, List.reverse_nil,
        List.nil_append, List.singleton_append, List.takeWhile]
      cases h : a.grade.isFail <;> simp
    rw [hfold, htrail]
    cases hg : a.grade <;> simp [Grade.isFail, hg, ih]

/-- The loop of `stability` returns `none` exactly when walking the remaining
reviews from the previous timestamp `prev` meets a strictly decreasing
adjacent pair of timestamps. -/
theorem stabilityGo_eq_none_iff (rs : List Review) :
    ∀ (cur prev : ℚ),
      stabilityGo cur prev rs = Option.none ↔
        ¬ List.Chain (fun a b : ℚ => a ≤ b) prev (rs.map Review.timestamp) := by
  induction rs with
  | nil =>
    intro cur prev
    simp [stabilityGo]
  | cons r rs ih =>
    intro cur prev
    by_cases h : prev > r.timestamp
    · simp [stabilityGo, h, List.chain_cons, not_le.mpr h]
    · have hle : prev ≤ r.timestamp := not_lt.mp h
      simp [stabilityGo, h, List.chain_cons, hle, ih]

/-- Claim C3: `stability` returns `none` exactly on the empty log or on a log
where some review's timestamp is strictly smaller than its predecessor's
(`¬ Chain'` of nondecreasing timestamps); in every other case — including
adjacent equal timestamps — it returns `some` value. -/
theorem stability_eq_none_iff (reviews : List Review) :
    stability reviews = Option.none ↔
      (reviews = [] ∨
        ¬ List.Chain' (fun a b : Review => a.timestamp ≤ b.timestamp) reviews) := by
  cases reviews with
  | nil => simp [stability]
  | cons r rs =>
    have hchain :
        List.Chain' (fun a b : Review => a.timestamp ≤ b.timestamp) (r :: rs) ↔
          List.Chain (fun a b : ℚ => a ≤ b) r.timestamp (rs.map Review.timestamp) := by
      show List.Chain (fun a b : Review => a.timestamp ≤ b.timestamp) r rs ↔ _
      exact (List.chain_map Review.timestamp).symm
    simp [stability, stabilityGo_eq_none_iff, hchain]

/-- Claim C4: for a grade whose factor is below one (a failed recall), every
nonnegative elapsed time and current stability give
`new_stability = min(elapsed, current) * factor`, which never exceeds the
current stability and never exceeds `elapsed * factor`. -/
theorem new_stability_fail (g : Grade) (e c : ℚ)
    (hg : g.get_factor < 1) (he : 0 ≤ e) (hc : 0 ≤ c) :
    new_stability g (Option.some e) c = min e c * g.get_factor ∧
    new_stability g (Option.some e) c ≤ c ∧
    new_stability g (Option.some e) c ≤ e * g.get_factor := by
  have heq : new_stability g (Option.some e) c = min e c * g.get_factor := by
    simp [new_stability, hg]
  refine ⟨heq, ?_, ?_⟩
  · rw [heq]
    have hf0 : 0 ≤ g.get_factor := by
      cases g <;> norm_num [Grade.get_factor]
    have hmc : min e c ≤ c := min_le_right e c
    have h1 : min e c * g.get_factor ≤ c * g.get_factor :=
      mul_le_mul_of_nonneg_right hmc hf0
    have h2 : c * g.get_factor ≤ c * 1 :=
      mul_le_mul_of_nonneg_left (le_of_lt hg) hc
    simpa using h1.trans h2
  · rw [heq]
    have hf0 : 0 ≤ g.get_factor := by
      cases g <;> norm_num [Grade.get_factor]
    exact mul_le_mul_of_nonneg_right (min_le_left e c) hf0

/-- Witness for claim C4 at grade None, elapsed 5, current stability 3. -/
theorem new_stability_fail_app :
    (Grade.none.get_factor < 1 ∧ (0:ℚ) ≤ 5 ∧ (0:ℚ) ≤ 3) ∧
    (new_stability Grade.none (Option.some 5) 3 = min 5 3 * Grade.none.get_factor ∧
     new_stability Grade.none (Option.some 5) 3 ≤ 3 ∧
     new_stability Grade.none (Option.some 5) 3 ≤ 5 * Grade.none.get_factor) :=
  ⟨⟨by norm_num [Grade.get_factor], by norm_num, by norm_num⟩,
    new_stability_fail Grade.none 5 3 (by norm_num [Grade.get_factor]) (by norm_num) (by norm_num)⟩

/-- `new_stability` is positive whenever the elapsed time and the current
stability are positive. -/
theorem new_stability_pos (g : Grade) (e c : ℚ) (he : 0 < e) (hc : 0 < c) :
    0 < new_stability g (Option.some e) c := by
  have hf : 0 < g.get_factor := by
    cases g <;> norm_num [Grade.get_factor]
  simp only [new_stability, Option.getD_some]
  split_ifs with h1 h2
  · exact mul_pos (lt_min he hc) hf
  · exact mul_pos he hf
  · have hnn : 0 ≤ c * (e / c * g.get_factor) :=
      mul_nonneg hc.le (mul_nonneg (div_nonneg he.le hc.le) hf.le)
    linarith

/-- Seeding with an absent elapsed time is the same as seeding with the
one-day default. -/
theorem new_stability_none (g : Grade) (c : ℚ) :
    new_stability g Option.none c = new_stability g (Option.some 86400) c := rfl

/-- With strictly increasing timestamps ahead and a positive running value,
the stability loop completes with a positive value. -/
theorem stabilityGo_pos (rs : List Review) :
    ∀ (cur prev : ℚ), 0 < cur →
      List.Chain (fun a b : ℚ => a < b) prev (rs.map Review.timestamp) →
      ∃ s : ℚ, stabilityGo cur prev rs = Option.some s ∧ 0 < s := by
  induction rs with
  | nil =>
    intro cur prev hcur _
    exact ⟨cur, rfl, hcur⟩
  | cons r rs ih =>
    intro cur prev hcur hchain
    rw [List.map_cons, List.chain_cons] at hchain
    obtain ⟨hlt, hchain⟩ := hchain
    have hguard : ¬ prev > r.timestamp := not_lt.mpr hlt.le
    have hstep : 0 < new_stability r.grade (Option.some (r.timestamp - prev)) cur :=
      new_stability_pos _ _ _ (by linarith) hcur
    obtain ⟨s, hs, hspos⟩ := ih _ r.timestamp hstep hchain
    exact ⟨s, by simpa [stabilityGo, hguard] using hs, hspos⟩

/-- On a nonempty log with strictly increasing timestamps, `stability`
returns a positive value. -/
theorem stability_pos (r0 : Review) (rs : List Review)
    (hchain : List.Chain' (fun a b : Review => a.timestamp < b.timestamp) (r0 :: rs)) :
    ∃ s : ℚ, stability (r0 :: rs) = Option.some s ∧ 0 < s := by
  have hchain' : List.Chain (fun a b : ℚ => a < b) r0.timestamp (rs.map Review.timestamp) := by
    have : List.Chain (fun a b : Review => a.timestamp < b.timestamp) r0 rs := hchain
    exact (List.chain_map Review.timestamp).mpr this
  have hseed : 0 < new_stability r0.grade Option.none 86400 := by
    rw [new_stability_none]
    exact new_stability_pos _ _ _ (by norm_num) (by norm_num)
  exact stabilityGo_pos rs _ r0.timestamp hseed hchain'

/-- Claim C2 (amended): for every nonempty review log with strictly
increasing timestamps whose last review is not after the query time,
`recall_rate` returns `some` rate equal to
`exp(ln(0.9) * (elapsed / stability))`; the rate lies in [0,1], equals 1 when
the elapsed time is zero, and strictly decreases as the query time
increases. -/
theorem recall_rate_formula (l : List Review) (r : Review) (at1 at2 : ℚ)
    (hlast : l.getLast? = Option.some r)
    (hchain : List.Chain' (fun a b : Review => a.timestamp < b.timestamp) l)
    (hat1 : r.timestamp ≤ at1) :
    ∃ s : ℚ, stability l = Option.some s ∧ 0 < s ∧
      recall_rate l at1 = Option.some (calculate_recall_rate (at1 - r.timestamp) s) ∧
      0 ≤ calculate_recall_rate (at1 - r.timestamp) s ∧
      calculate_recall_rate (at1 - r.timestamp) s ≤ 1 ∧
      (at1 = r.timestamp → calculate_recall_rate (at1 - r.timestamp) s = 1) ∧
      (at1 < at2 →
        calculate_recall_rate (at2 - r.timestamp) s <
          calculate_recall_rate (at1 - r.timestamp) s) := by
  obtain ⟨r0, rs, rfl⟩ : ∃ r0 rs, l = r0 :: rs := by
    cases l with
    | nil => simp at hlast
    | cons a as => exact ⟨a, as, rfl⟩
  obtain ⟨s, hs, hspos⟩ := stability_pos r0 rs hchain
  have hsR : (0 : ℝ) < (s : ℝ) := by exact_mod_cast hspos
  have htp : Review.time_passed r at1 = at1 - r.timestamp := by
    simp [Review.time_passed, not_lt.mpr hat1]
  have hrate :
      recall_rate (r0 :: rs) at1 =
        Option.some (calculate_recall_rate (at1 - r.timestamp) s) := by
    simp [recall_rate, time_since_last_review, hlast, hs, htp]
  have hlog : Real.log (9/10) < 0 :=
    Real.log_neg (by norm_num) (by norm_num)
  have he1 : (0 : ℝ) ≤ ((at1 - r.timestamp : ℚ) : ℝ) := by
    have : (0 : ℚ) ≤ at1 - r.timestamp := by linarith
    exact_mod_cast this
  refine ⟨s, hs, hspos, hrate, (Real.exp_pos _).le, ?_, ?_, ?_⟩
  · have hxp : Real.log (9/10) * (((at1 - r.timestamp : ℚ) : ℝ) / (s : ℝ)) ≤ 0 :=
      mul_nonpos_iff.mpr (Or.inr ⟨hlog.le, div_nonneg he1 hsR.le⟩)
    calc calculate_recall_rate (at1 - r.timestamp) s
        ≤ Real.exp 0 := Real.exp_le_exp.mpr hxp
      _ = 1 := Real.exp_zero
  · intro h
    simp [calculate_recall_rate, h]
  · intro hlt
    have hqq : (( at1 - r.timestamp : ℚ) : ℝ) < ((at2 - r.timestamp : ℚ) : ℝ) := by
      have : (at1 - r.timestamp : ℚ) < at2 - r.timestamp := by linarith
      exact_mod_cast this
    have hdiv : ((at1 - r.timestamp : ℚ) : ℝ) / (s : ℝ) < ((at2 - r.timestamp : ℚ) : ℝ) / (s : ℝ) :=
      (div_lt_div_iff_of_pos_right hsR).mpr hqq
    have := mul_lt_mul_of_neg_left hdiv hlog
    exact Real.exp_lt_exp.mpr this

/-- Counterexample to claim C2 as stated: the log
[(t=0, None), (t=0, None)] is nonempty and its last review (t=0) is not
after either query time, yet the recall rate at the strictly later query
time 172800 equals the rate at 86400 instead of being strictly smaller:
the duplicate timestamp collapses the stability to zero.  (In the
embedding the degenerate division yields rate 1 at both query times; the
source's `f32` division by zero would yield rate 0 at both — equal, hence
not strictly decreasing, either way.) -/
theorem recall_rate_not_strictly_decreasing :
    stability [⟨0, Grade.none, 0⟩, ⟨0, Grade.none, 0⟩] = Option.some (0 : ℚ) ∧
    (86400 : ℚ) < 172800 ∧
    recall_rate [⟨0, Grade.none, 0⟩, ⟨0, Grade.none, 0⟩] 86400 = Option.some 1 ∧
    recall_rate [⟨0, Grade.none, 0⟩, ⟨0, Grade.none, 0⟩] 172800 = Option.some 1 := by
  have hstab : stability [⟨0, Grade.none, 0⟩, ⟨0, Grade.none, 0⟩] = Option.some (0 : ℚ) := by
    norm_num [stability, stabilityGo, new_stability, Grade.get_factor, min_def]
  refine ⟨hstab, by norm_num, ?_, ?_⟩ <;>
    simp [recall_rate, time_since_last_review, hstab, Review.time_passed,
      calculate_recall_rate]

/-- Witness for the amended claim C2 at the log [(t=0, Perfect)] with query
times 0 and 86400. -/
theorem recall_rate_formula_app :
    ([⟨0, Grade.perfect, 0⟩] : List Review).getLast? = Option.some ⟨0, Grade.perfect, 0⟩ ∧
    List.Chain' (fun a b : Review => a.timestamp < b.timestamp) [⟨0, Grade.perfect, 0⟩] ∧
    (Review.timestamp ⟨0, Grade.perfect, 0⟩ ≤ 0) ∧
    (∃ s : ℚ, stability [⟨0, Grade.perfect, 0⟩] = Option.some s ∧ 0 < s ∧
      recall_rate [⟨0, Grade.perfect, 0⟩] 0 =
        Option.some (calculate_recall_rate ((0 : ℚ) - Review.timestamp ⟨0, Grade.perfect, 0⟩) s) ∧
      0 ≤ calculate_recall_rate ((0 : ℚ) - Review.timestamp ⟨0, Grade.perfect, 0⟩) s ∧
      calculate_recall_rate ((0 : ℚ) - Review.timestamp ⟨0, Grade.perfect, 0⟩) s ≤ 1 ∧
      ((0 : ℚ) = Review.timestamp ⟨0, Grade.perfect, 0⟩ →
        calculate_recall_rate ((0 : ℚ) - Review.timestamp ⟨0, Grade.perfect, 0⟩) s = 1) ∧
      ((0 : ℚ) < 86400 →
        calculate_recall_rate ((86400 : ℚ) - Review.timestamp ⟨0, Grade.perfect, 0⟩) s <
          calculate_recall_rate ((0 : ℚ) - Review.timestamp ⟨0, Grade.perfect, 0⟩) s)) :=
  ⟨rfl, List.chain'_singleton _, le_refl 0,
    recall_rate_formula [⟨0, Grade.perfect, 0⟩] ⟨0, Grade.perfect, 0⟩ 0 86400
      rfl (List.chain'_singleton _) (le_refl 0)⟩

/-! ## Dependency graph traversal (src/cache.rs)

The card store behind `CardCache` is embedded as an association list from
card id to the card's dependency ids.  `CardCache::dependencies` returns the
empty set for an id that cannot be resolved. -/

/-- Card identifiers (`CardId`, a uuid in the source). -/
abbrev Id := ℕ

/-- The card store seen by the cache: each known card id with its
dependency ids. -/
abbrev Env := List (Id × List Id)

/-- `CardCache::dependencies` (src/cache.rs lines 94-103): the dependency
ids of the card, or empty if the id cannot be resolved. -/
def dependencies (env : Env) (id : Id) : List Id :=
  (env.lookup id).getD []

/-- One dependency edge: `b` is a direct dependency of `a`. -/
def Step (env : Env) (a b : Id) : Prop :=
  b ∈ dependencies env a

/-- The loop of `CardCache::recursive_dependencies` (src/cache.rs lines
110-120), with the recursion depth bounded by an explicit fuel parameter:
pop a card off the stack; if it has not been visited, mark it visited and
push its dependencies.  Returns `none` only when the fuel runs out before
the stack empties.  (The head of the list plays the role of the
`VecDeque`'s back.) -/
def dfsLoop (env : Env) : ℕ → List Id → Finset Id → Option (Finset Id)
  | _, [], visited => Option.some visited
  | 0, _ :: _, _ => Option.none
  | fuel + 1, c :: stack, visited =>
    if c ∈ visited then dfsLoop env fuel stack visited
    else dfsLoop env fuel (dependencies env c ++ stack) (insert c visited)

/-- Every id mentioned in the store (keys and dependency targets). -/
def nodeList (env : Env) : List Id :=
  env.foldr (fun p acc => p.1 :: p.2 ++ acc) []

/-- The finite universe a traversal starting from `id` can ever touch. -/
def nodes (env : Env) (id : Id) : Finset Id :=
  insert id (nodeList env).toFinset

/-- Fuel that provably suffices for the traversal to complete: one pop for
the start plus, for every node of the universe, one pop and one push per
dependency. -/
def dfsFuel (env : Env) (id : Id) : ℕ :=
  1 + ∑ c ∈ nodes env id, (1 + (dependencies env c).length)

/-- `CardCache::recursive_dependencies` (src/cache.rs lines 105-124): run
the stack loop from `[id]` with no visited cards, then remove the start id
from the result. -/
def recursive_dependencies (env : Env) (id : Id) : Finset Id :=
  ((dfsLoop env (dfsFuel env id) [id] ∅).getD ∅).erase id

/-- Dependency targets of any id lie in `nodeList`. -/
theorem dependencies_subset_nodeList (env : Env) (c : Id) :
    ∀ y ∈ dependencies env c, y ∈ nodeList env := by
  induction env with
  | nil => simp [dependencies]
  | cons p env ih =>
    obtain ⟨k, v⟩ := p
    intro y hy
    by_cases hc : c = k
    · subst hc
      have hl : List.lookup c ((c, v) :: env) = Option.some v := by
        simp [List.lookup]
      rw [dependencies, hl] at hy
      simp only [Option.getD_some] at hy
      simp [nodeList, hy]
    · have hbeq : (c == k) = false := by
        simp [hc]
      have hl : List.lookup c ((k, v) :: env) = List.lookup c env := by
        simp [List.lookup, hbeq]
      rw [dependencies, hl] at hy
      have h2 := ih y hy
      simp only [nodeList, List.foldr_cons] at h2 ⊢
      simp only [List.mem_cons, List.mem_append]
      tauto

/-- The visited set only grows along the loop. -/
theorem dfsLoop_visited_subset (env : Env) :
    ∀ (fuel : ℕ) (stack : List Id) (visited out : Finset Id),
      dfsLoop env fuel stack visited = Option.some out → visited ⊆ out := by
  intro fuel
  induction fuel with
  | zero =>
    intro stack visited out h
    cases stack with
    | nil => simp [dfsLoop] at h; simpa [h] using Finset.Subset.refl _
    | cons c stack => simp [dfsLoop] at h
  | succ n ih =>
    intro stack visited out h
    cases stack with
    | nil => simp [dfsLoop] at h; simpa [h] using Finset.Subset.refl _
    | cons c stack =>
      by_cases hc : c ∈ visited
      · simp only [dfsLoop, if_pos hc] at h
        exact ih _ _ _ h
      · simp only [dfsLoop, if_neg hc] at h
        exact (Finset.subset_insert c visited).trans (ih _ _ _ h)

/-- Every id on the stack ends up in the final visited set. -/
theorem dfsLoop_stack_subset (env : Env) :
    ∀ (fuel : ℕ) (stack : List Id) (visited out : Finset Id),
      dfsLoop env fuel stack visited = Option.some out → ∀ s ∈ stack, s ∈ out := by
  intro fuel
  induction fuel with
  | zero =>
    intro stack visited out h s hs
    cases stack with
    | nil => simp at hs
    | cons c stack => simp [dfsLoop] at h
  | succ n ih =>
    intro stack visited out h s hs
    cases stack with
    | nil => simp at hs
    | cons c stack =>
      by_cases hc : c ∈ visited
      · simp only [dfsLoop, if_pos hc] at h
        rcases List.mem_cons.mp hs with rfl | hs'
        · exact dfsLoop_visited_subset env _ _ _ _ h hc
        · exact ih _ _ _ h s hs'
      · simp only [dfsLoop, if_neg hc] at h
        rcases List.mem_cons.mp hs with rfl | hs'
        · exact dfsLoop_visited_subset env _ _ _ _ h (Finset.mem_insert_self _ _)
        · exact ih _ _ _ h s (List.mem_append_right _ hs')

/-- The final visited set is closed under dependencies of its fresh
members (those not visited at the start). -/
theorem dfsLoop_closed (env : Env) :
    ∀ (fuel : ℕ) (stack : List Id) (visited out : Finset Id),
      dfsLoop env fuel stack visited = Option.some out →
      ∀ x ∈ out, x ∉ visited → ∀ y ∈ dependencies env x, y ∈ out := by
  intro fuel
  induction fuel with
  | zero =>
    intro stack visited out h x hx hxv y hy
    cases stack with
    | nil =>
      simp [dfsLoop] at h
      subst h
      exact absurd hx hxv
    | cons c stack => simp [dfsLoop] at h
  | succ n ih =>
    intro stack visited out h x hx hxv y hy
    cases stack with
    | nil =>
      simp [dfsLoop] at h
      subst h
      exact absurd hx hxv
    | cons c stack =>
      by_cases hc : c ∈ visited
      · simp only [dfsLoop, if_pos hc] at h
        exact ih _ _ _ h x hx hxv y hy
      · simp only [dfsLoop, if_neg hc] at h
        by_cases hxc : x = c
        · subst hxc
          exact dfsLoop_stack_subset env _ _ _ _ h y (List.mem_append_left _ hy)
        · exact ih _ _ _ h x hx (by simp [hxc, hxv]) y hy

/-- Soundness: every id in the final visited set was either already visited
or is reachable from some stack entry. -/
theorem dfsLoop_sound (env : Env) :
    ∀ (fuel : ℕ) (stack : List Id) (visited out : Finset Id),
      dfsLoop env fuel stack visited = Option.some out →
      ∀ x ∈ out, x ∈ visited ∨ ∃ s ∈ stack, Relation.ReflTransGen (Step env) s x := by
  intro fuel
  induction fuel with
  | zero =>
    intro stack visited out h x hx
    cases stack with
    | nil =>
      simp [dfsLoop] at h
      subst h
      exact Or.inl hx
    | cons c stack => simp [dfsLoop] at h
  | succ n ih =>
    intro stack visited out h x hx
    cases stack with
    | nil =>
      simp [dfsLoop] at h
      subst h
      exact Or.inl hx
    | cons c stack =>
      by_cases hc : c ∈ visited
      · simp only [dfsLoop, if_pos hc] at h
        rcases ih _ _ _ h x hx with hv | ⟨s, hs, hr⟩
        · exact Or.inl hv
        · exact Or.inr ⟨s, List.mem_cons_of_mem c hs, hr⟩
      · simp only [dfsLoop, if_neg hc] at h
        rcases ih _ _ _ h x hx with hv | ⟨s, hs, hr⟩
        · rcases Finset.mem_insert.mp hv with rfl | hv'
          · exact Or.inr ⟨x, List.mem_cons_self x stack, Relation.ReflTransGen.refl⟩
          · exact Or.inl hv'
        · rcases List.mem_append.mp hs with hdep | hstk
          · exact Or.inr ⟨c, List.mem_cons_self c stack,
              Relation.ReflTransGen.head hdep hr⟩
          · exact Or.inr ⟨s, List.mem_cons_of_mem c hstk, hr⟩

/-- Fuel sufficiency: if the stack lies inside the universe `nodes env id`
and the fuel dominates the measure
(stack length) + Σ over unvisited universe nodes of (1 + out-degree),
the loop completes. -/
theorem dfsLoop_completes (env : Env) (id : Id) :
    ∀ (fuel : ℕ) (stack : List Id) (visited : Finset Id),
      (∀ s ∈ stack, s ∈ nodes env id) →
      stack.length +
          ∑ c ∈ nodes env id \ visited, (1 + (dependencies env c).length) ≤ fuel →
      (dfsLoop env fuel stack visited).isSome := by
  intro fuel
  induction fuel with
  | zero =>
    intro stack visited hstk hmu
    cases stack with
    | nil => simp [dfsLoop]
    | cons c stack => simp at hmu
  | succ n ih =>
    intro stack visited hstk hmu
    cases stack with
    | nil => simp [dfsLoop]
    | cons c stack =>
      by_cases hc : c ∈ visited
      · simp only [dfsLoop, if_pos hc]
        apply ih stack visited (fun s hs => hstk s (List.mem_cons_of_mem c hs))
        simp only [List.length_cons] at hmu
        omega
      · simp only [dfsLoop, if_neg hc]
        have hcU : c ∈ nodes env id := hstk c (List.mem_cons_self c stack)
        have hcin : c ∈ nodes env id \ visited := Finset.mem_sdiff.mpr ⟨hcU, hc⟩
        have hsum :
            ∑ x ∈ nodes env id \ visited, (1 + (dependencies env x).length) =
              (1 + (dependencies env c).length) +
                ∑ x ∈ (nodes env id \ visited).erase c, (1 + (dependencies env x).length) :=
          (Finset.add_sum_erase _ _ hcin).symm
        have herase : (nodes env id \ visited).erase c = nodes env id \ insert c visited := by
          ext x
          simp only [Finset.mem_erase, Finset.mem_sdiff, Finset.mem_insert]
          tauto
        apply ih
        · intro s hs
          rcases List.mem_append.mp hs with hdep | hstk'
          · have := dependencies_subset_nodeList env c s hdep
            simp [nodes, this]
          · exact hstk s (List.mem_cons_of_mem c hstk')
        · rw [← herase]
          simp only [List.length_append, List.length_cons] at hmu ⊢
          omega

/-- Completeness: starting from `[id]` with nothing visited, every id
reachable from `id` lands in the final visited set. -/
theorem dfsLoop_complete_from (env : Env) (id : Id) (out : Finset Id)
    (h : dfsLoop env (dfsFuel env id) [id] ∅ = Option.some out) :
    ∀ x, Relation.ReflTransGen (Step env) id x → x ∈ out := by
  intro x hx
  induction hx with
  | refl => exact dfsLoop_stack_subset env _ _ _ _ h id (List.mem_singleton_self id)
  | tail hr hstep ih =>
    exact dfsLoop_closed env _ _ _ _ h _ ih (Finset.not_mem_empty _) _ hstep

/-- Claim C5: for every dependency graph (cyclic ones included) the
traversal completes within the explicit fuel bound (explicit stack plus
visited set, no unbounded recursion); `recursive_dependencies id` is
exactly the set of ids reachable from `id` along dependency edges with the
start excluded; and on the two-cycle 0→1→0 the result from 0 is {1}. -/
theorem recursive_dependencies_spec :
    (∀ (env : Env) (id : Id),
      ∃ out : Finset Id, dfsLoop env (dfsFuel env id) [id] ∅ = Option.some out) ∧
    (∀ (env : Env) (id x : Id),
      x ∈ recursive_dependencies env id ↔
        (Relation.ReflTransGen (Step env) id x ∧ x ≠ id)) ∧
    recursive_dependencies [(0, [1]), (1, [0])] 0 = {1} := by
  have hcompl : ∀ (env : Env) (id : Id),
      ∃ out : Finset Id, dfsLoop env (dfsFuel env id) [id] ∅ = Option.some out := by
    intro env id
    have hsome : (dfsLoop env (dfsFuel env id) [id] ∅).isSome := by
      apply dfsLoop_completes env id
      · intro s hs
        rcases List.mem_singleton.mp hs with rfl
        exact Finset.mem_insert_self _ _
      · simp only [dfsFuel, List.length_singleton, Finset.sdiff_empty]
        omega
    exact ⟨(dfsLoop env (dfsFuel env id) [id] ∅).get hsome, Option.eq_some_of_isSome hsome⟩
  refine ⟨hcompl, ?_, ?_⟩
  · intro env id x
    obtain ⟨out, hout⟩ := hcompl env id
    have hres : recursive_dependencies env id = out.erase id := by
      simp [recursive_dependencies, hout]
    rw [hres, Finset.mem_erase]
    constructor
    · rintro ⟨hne, hmem⟩
      rcases dfsLoop_sound env _ _ _ _ hout x hmem with hv | ⟨s, hs, hr⟩
      · exact absurd hv (Finset.not_mem_empty x)
      · rcases List.mem_singleton.mp hs with rfl
        exact ⟨hr, hne⟩
    · rintro ⟨hr, hne⟩
      exact ⟨hne, dfsLoop_complete_from env id out hout x hr⟩
  · decide

/-! ## `is_resolved` / `all_dependencies` (src/card/mod.rs lines 999-1028)

`SavedCard::from_id` and the per-card data that `is_resolved` consults
(`get_dependencies`, `is_finished`) are embedded as an association list from
card id to a record of dependency ids and the finished flag.  The source's
`all_dependencies` recurses without a visited set, so its recursion depth is
made explicit with a fuel parameter: a `none` result means the fuel ran out
before the recursion completed. -/

/-- The part of a card that `is_resolved` consults: its dependency ids and
its finished flag. -/
structure CardModel where
  deps : List Id
  finished : Bool
deriving DecidableEq

/-- The card store seen by `SavedCard::from_id`: `none` is a dangling id. -/
abbrev CardEnv := List (Id × CardModel)

/-- One dependency edge through a loadable card. -/
def StepC (env : CardEnv) (a b : Id) : Prop :=
  ∃ card, env.lookup a = Option.some card ∧ b ∈ card.deps

/-- The `inner` recursion of `SavedCard::all_dependencies` (src/card/mod.rs
lines 1011-1028), fuel-indexed: a dangling id is a dead end contributing
nothing; otherwise every dependency is emitted followed by its own
recursive dependencies. -/
def allDepsGo (env : CardEnv) : ℕ → Id → Option (List Id)
  | 0, _ => Option.none
  | n + 1, id =>
    match env.lookup id with
    | Option.none => Option.some []
    | Option.some card =>
      card.deps.foldr
        (fun d acc => do
          let l ← allDepsGo env n d
          let r ← acc
          pure (d :: (l ++ r)))
        (Option.some [])

/-- The fold over a dependency list inside `allDepsGo`. -/
def depsFold (env : CardEnv) (n : ℕ) (ds : List Id) : Option (List Id) :=
  ds.foldr
    (fun d acc => do
      let l ← allDepsGo env n d
      let r ← acc
      pure (d :: (l ++ r)))
    (Option.some [])

theorem allDepsGo_succ (env : CardEnv) (n : ℕ) (id : Id) :
    allDepsGo env (n + 1) id =
      match env.lookup id with
      | Option.none => Option.some []
      | Option.some card => depsFold env n card.deps := rfl

/-- `SavedCard::is_resolved` (src/card/mod.rs lines 999-1009): true iff no
loadable card among the collected dependencies is unfinished; a dangling
dependency id contributes `true`. -/
def is_resolved (env : CardEnv) (fuel : ℕ) (id : Id) : Option Bool :=
  (allDepsGo env fuel id).map (fun ds =>
    ds.all (fun d =>
      match env.lookup d with
      | Option.some card => card.finished
      | Option.none => true))

/-- Anatomy of a completed dependency-list fold: every listed dependency
completed its own recursion and is contained in the result, and every
element of the result is a listed dependency or comes from one's
recursion. -/
theorem depsFold_spec (env : CardEnv) (n : ℕ) :
    ∀ (ds r : List Id), depsFold env n ds = Option.some r →
      (∀ d ∈ ds, ∃ l, allDepsGo env n d = Option.some l ∧ d ∈ r ∧ ∀ x ∈ l, x ∈ r) ∧
      (∀ x ∈ r, ∃ d ∈ ds, x = d ∨ ∃ l, allDepsGo env n d = Option.some l ∧ x ∈ l) := by
  intro ds
  induction ds with
  | nil =>
    intro r h
    simp only [depsFold, List.foldr_nil, Option.some.injEq] at h
    subst h
    constructor
    · intro d hd; simp at hd
    · intro x hx; simp at hx
  | cons d ds ih =>
    intro r h
    simp only [depsFold, List.foldr_cons] at h
    cases hA : allDepsGo env n d with
    | none => rw [hA] at h; simp at h
    | some l =>
      rw [hA] at h
      cases hB : List.foldr
          (fun d acc => do
            let l ← allDepsGo env n d
            let r ← acc
            pure (d :: (l ++ r)))
          (Option.some []) ds with
      | none =>
        rw [show (depsFold env n ds : Option (List Id)) = Option.none from hB] at *
        rw [hB] at h; simp at h
      | some r' =>
        rw [hB] at h
        simp only [Option.bind_eq_bind', Option.some_bind', Option.some_bind,
          Option.pure_def, Option.some.injEq] at h
        subst h
        have hds : depsFold env n ds = Option.some r' := hB
        obtain ⟨ih1, ih2⟩ := ih r' hds
        constructor
        · intro d' hd'
          rcases List.mem_cons.mp hd' with rfl | hmem
          · exact ⟨l, hA, List.mem_cons_self _ _, fun x hx =>
              List.mem_cons_of_mem _ (List.mem_append_left _ hx)⟩
          · obtain ⟨l', hl', hdr, hsub⟩ := ih1 d' hmem
            exact ⟨l', hl',
              List.mem_cons_of_mem _ (List.mem_append_right _ hdr),
              fun x hx => List.mem_cons_of_mem _ (List.mem_append_right _ (hsub x hx))⟩
        · intro x hx
          rcases List.mem_cons.mp hx with rfl | hmem
          · exact ⟨x, List.mem_cons_self _ _, Or.inl rfl⟩
          · rcases List.mem_append.mp hmem with hl | hr'
            · exact ⟨d, List.mem_cons_self _ _, Or.inr ⟨l, hA, hl⟩⟩
            · obtain ⟨d', hd', hcase⟩ := ih2 x hr'
              exact ⟨d', List.mem_cons_of_mem _ hd', hcase⟩

/-- Soundness: everything `allDepsGo` collects is reachable by at least one
dependency edge. -/
theorem allDepsGo_sound (env : CardEnv) :
    ∀ (fuel : ℕ) (id : Id) (l : List Id),
      allDepsGo env fuel id = Option.some l →
      ∀ x ∈ l, Relation.TransGen (StepC env) id x := by
  intro fuel
  induction fuel with
  | zero => intro id l h; simp [allDepsGo] at h
  | succ n ih =>
    intro id l h x hx
    rw [allDepsGo_succ] at h
    cases hlk : env.lookup id with
    | none =>
      rw [hlk] at h
      simp only [Option.some.injEq] at h
      subst h
      simp at hx
    | some card =>
      rw [hlk] at h
      obtain ⟨-, h2⟩ := depsFold_spec env n card.deps l h
      obtain ⟨d, hd, hcase⟩ := h2 x hx
      have hstep : StepC env id d := ⟨card, hlk, hd⟩
      rcases hcase with rfl | ⟨l', hl', hx'⟩
      · exact Relation.TransGen.single hstep
      · exact Relation.TransGen.head hstep (ih d l' hl' x hx')

/-- Completeness: when `allDepsGo` completes, it collects everything
reachable by at least one dependency edge. -/
theorem allDepsGo_complete (env : CardEnv) :
    ∀ (fuel : ℕ) (id : Id) (l : List Id),
      allDepsGo env fuel id = Option.some l →
      ∀ x, Relation.TransGen (StepC env) id x → x ∈ l := by
  intro fuel
  induction fuel with
  | zero => intro id l h; simp [allDepsGo] at h
  | succ n ih =>
    intro id l h x hT
    obtain ⟨d, hstep, hRT⟩ := Relation.TransGen.head'_iff.mp hT
    rcases Relation.reflTransGen_iff_eq_or_transGen.mp hRT with rfl | hT'
    · obtain ⟨card, hlk, hx⟩ := hstep
      rw [allDepsGo_succ, hlk] at h
      obtain ⟨h1, -⟩ := depsFold_spec env n card.deps l h
      obtain ⟨l', -, hdr, -⟩ := h1 x hx
      exact hdr
    · obtain ⟨card, hlk, hd⟩ := hstep
      rw [allDepsGo_succ, hlk] at h
      obtain ⟨h1, -⟩ := depsFold_spec env n card.deps l h
      obtain ⟨l', hl', -, hsub⟩ := h1 d hd
      exact hsub x (ih d l' hl' x hT')

/-- Claim C6: whenever the source's (fuel-indexed) dependency recursion
completes, the collected list is exactly the transitive dependency closure;
`is_resolved` returns true iff every card in that closure that can actually
be loaded is finished; a dangling id is a dead end contributing nothing and
never by itself making `is_resolved` false; and a card with no dependencies
is trivially resolved. -/
theorem is_resolved_spec (env : CardEnv) (fuel : ℕ) (id : Id) (l : List Id)
    (h : allDepsGo env fuel id = Option.some l) :
    (∀ x, x ∈ l ↔ Relation.TransGen (StepC env) id x) ∧
    (is_resolved env fuel id = Option.some true ↔
      ∀ x, Relation.TransGen (StepC env) id x →
        ∀ card, env.lookup x = Option.some card → card.finished = true) ∧
    (env.lookup id = Option.none → l = []) ∧
    (∀ card, env.lookup id = Option.some card → card.deps = [] →
      l = [] ∧ is_resolved env fuel id = Option.some true) := by
  have hmem : ∀ x, x ∈ l ↔ Relation.TransGen (StepC env) id x := fun x =>
    ⟨allDepsGo_sound env fuel id l h x, allDepsGo_complete env fuel id l h x⟩
  have hres :
      is_resolved env fuel id = Option.some true ↔
        ∀ x, Relation.TransGen (StepC env) id x →
          ∀ card, env.lookup x = Option.some card → card.finished = true := by
    have hval :
        is_resolved env fuel id =
          Option.some (l.all fun d =>
            match env.lookup d with
            | Option.some card => card.finished
            | Option.none => true) := by
      rw [is_resolved, h]
      rfl
    rw [hval]
    simp only [Option.some.injEq, List.all_eq_true]
    constructor
    · intro hall x hx card hcard
      have := hall x ((hmem x).mpr hx)
      rw [hcard] at this
      simpa using this
    · intro hall x hx
      cases hcard : env.lookup x with
      | none => simp [hcard]
      | some card =>
        simp only [hcard]
        exact hall x ((hmem x).mp hx) card hcard
  refine ⟨hmem, hres, ?_, ?_⟩
  · intro hnone
    cases fuel with
    | zero => simp [allDepsGo] at h
    | succ n =>
      have h0 : allDepsGo env (n + 1) id = Option.some [] := by
        rw [allDepsGo_succ, hnone]
      rw [h0] at h
      exact (Option.some.inj h).symm
  · intro card hcard hdeps
    cases fuel with
    | zero => simp [allDepsGo] at h
    | succ n =>
      have h0 : allDepsGo env (n + 1) id = depsFold env n card.deps := by
        rw [allDepsGo_succ, hcard]
      rw [h0, hdeps] at h
      have hsome : Option.some ([] : List Id) = Option.some l := by
        rw [← h]; rfl
      refine ⟨(Option.some.inj hsome).symm, ?_⟩
      rw [is_resolved, h0, hdeps]
      rfl

/-- A concrete card store for exercising `is_resolved`:
0 ↦ (deps [1, 2], finished), 1 ↦ (deps [], unfinished), and id 2 dangling. -/
def env6 : CardEnv := [(0, ⟨[1, 2], true⟩), (1, ⟨[], false⟩)]

/-- Witness for claim C6 at the store `env6`. -/
theorem is_resolved_spec_app :
    allDepsGo env6 2 0 = Option.some [1, 2] ∧
    ((∀ x, x ∈ [1, 2] ↔ Relation.TransGen (StepC env6) 0 x) ∧
      (is_resolved env6 2 0 = Option.some true ↔
        ∀ x, Relation.TransGen (StepC env6) 0 x →
          ∀ card, List.lookup x env6 = Option.some card → card.finished = true) ∧
      (List.lookup 0 env6 = Option.none → [1, 2] = ([] : List Id)) ∧
      (∀ card, List.lookup 0 env6 = Option.some card → card.deps = [] →
        ([1, 2] : List Id) = [] ∧ is_resolved env6 2 0 = Option.some true)) :=
  ⟨by decide, is_resolved_spec env6 2 0 [1, 2] (by decide)⟩

/-! ## CardCache freshness (src/cache.rs lines 18-61 and 126-129)

The filesystem backing the cache is embedded as an association list from a
path to the file's modification time and card content; the cache itself as
an association list from card id to the cached snapshot. -/

/-- File paths, abstracted to naturals. -/
abbrev PathId := ℕ

/-- The card content stored in a file. -/
structure DiskCard where
  id : Id
  payload : ℕ
deriving DecidableEq

/-- One file: its modification time (unix seconds) and its card. -/
structure FileRecord where
  modified : ℚ
  card : DiskCard
deriving DecidableEq

/-- The filesystem the cache reads from. -/
abbrev FileSystem := List (PathId × FileRecord)

/-- A cached `SavedCard` snapshot: content, its path and the `last_modified`
recorded when it was loaded. -/
structure CachedCard where
  id : Id
  payload : ℕ
  path : PathId
  last_modified : ℚ
deriving DecidableEq

/-- The in-memory cache map (`CardCache`). -/
abbrev Cache := List (Id × CachedCard)

/-- `SavedCard::from_path` (src/card/mod.rs lines 804-817): load the card at
a path, recording the file's modification time as `last_modified`; `none`
when no file is at the path (the source is only handed existing paths
there). -/
def from_path (fs : FileSystem) (p : PathId) : Option CachedCard :=
  (fs.lookup p).map (fun fr => ⟨fr.card.id, fr.card.payload, p, fr.modified⟩)

/-- `SavedCard::from_id` as used on a cache miss (src/cache.rs line 56):
a linear search through all known cards for the one with this id. -/
def from_id (fs : FileSystem) (id : Id) : Option CachedCard :=
  (fs.find? (fun pr => pr.2.card.id == id)).map
    (fun pr => ⟨pr.2.card.id, pr.2.card.payload, pr.1, pr.2.modified⟩)

/-- The four freshness states of `CardCache::maybe_update`
(src/cache.rs lines 19-24). -/
inductive CardCacheStatus where
  | MissingFromCache
  | FileMissing
  | NeedsUpdate
  | UpToDate

/-- The classification step of `CardCache::maybe_update`
(src/cache.rs lines 26-44). -/
def cacheStatus (fs : FileSystem) (cache : Cache) (id : Id) : CardCacheStatus :=
  match cache.lookup id with
  | Option.some cached =>
    match fs.lookup cached.path with
    | Option.some fr =>
      if fr.modified > cached.last_modified then CardCacheStatus.NeedsUpdate
      else CardCacheStatus.UpToDate
    | Option.none => CardCacheStatus.FileMissing
  | Option.none => CardCacheStatus.MissingFromCache

/-- `HashMap::insert`: replace the slot for `id`. -/
def cacheInsert (cache : Cache) (id : Id) (c : CachedCard) : Cache :=
  (id, c) :: cache.filter (fun pr => pr.1 != id)

/-- The action step of `CardCache::maybe_update` (src/cache.rs lines
46-60): do nothing when up to date; reload from the known path and replace
the slot when the file advanced; fall back to the expensive full search on
a missing file or a missing entry, inserting only when found. -/
def maybe_update (fs : FileSystem) (cache : Cache) (id : Id) : Cache :=
  match cacheStatus fs cache id with
  | CardCacheStatus.UpToDate => cache
  | CardCacheStatus.NeedsUpdate =>
    match cache.lookup id with
    | Option.some cached =>
      match from_path fs cached.path with
      | Option.some card => cacheInsert cache id card
      | Option.none => cache
    | Option.none => cache
  | CardCacheStatus.FileMissing | CardCacheStatus.MissingFromCache =>
    match from_id fs id with
    | Option.some card => cacheInsert cache id card
    | Option.none => cache

/-- `CardCache::try_get_ref` (src/cache.rs lines 126-129): re-run the
freshness check, then read the slot. -/
def try_get_ref (fs : FileSystem) (cache : Cache) (id : Id) :
    Cache × Option CachedCard :=
  let cache2 := maybe_update fs cache id
  (cache2, cache2.lookup id)

/-- Looking up the freshly inserted slot. -/
theorem lookup_cacheInsert (cache : Cache) (id : Id) (c : CachedCard) :
    (cacheInsert cache id c).lookup id = Option.some c := by
  simp [cacheInsert, List.lookup]

/-- Claim C7: on every access the freshness check is evaluated anew:
an up-to-date entry (recorded `last_modified` at least the file's
modification time) is returned unchanged with the cache untouched; a file
whose modification time advanced past the recorded value causes the card
to be reloaded from its known path and the slot replaced before anything
is returned (the returned snapshot carries the fresh modification time);
and a `none` result can only happen when no file in the filesystem holds a
card with this id. -/
theorem try_get_ref_spec (fs : FileSystem) (cache : Cache) (id : Id) :
    (∀ cached fr,
      cache.lookup id = Option.some cached →
      fs.lookup cached.path = Option.some fr →
      fr.modified ≤ cached.last_modified →
      try_get_ref fs cache id = (cache, Option.some cached)) ∧
    (∀ cached fr,
      cache.lookup id = Option.some cached →
      fs.lookup cached.path = Option.some fr →
      cached.last_modified < fr.modified →
      try_get_ref fs cache id =
        (cacheInsert cache id ⟨fr.card.id, fr.card.payload, cached.path, fr.modified⟩,
          Option.some ⟨fr.card.id, fr.card.payload, cached.path, fr.modified⟩)) ∧
    ((try_get_ref fs cache id).2 = Option.none →
      ∀ p fr, (p, fr) ∈ fs → fr.card.id ≠ id) := by
  refine ⟨?_, ?_, ?_⟩
  · intro cached fr h1 h2 hle
    have hst : cacheStatus fs cache id = CardCacheStatus.UpToDate := by
      simp only [cacheStatus, h1, h2]
      simp [not_lt.mpr hle]
    simp [try_get_ref, maybe_update, hst, h1]
  · intro cached fr h1 h2 hlt
    have hst : cacheStatus fs cache id = CardCacheStatus.NeedsUpdate := by
      simp only [cacheStatus, h1, h2]
      simp [hlt]
    have hfp : from_path fs cached.path =
        Option.some ⟨fr.card.id, fr.card.payload, cached.path, fr.modified⟩ := by
      simp [from_path, h2]
    simp [try_get_ref, maybe_update, hst, h1, hfp, lookup_cacheInsert]
  · intro hnone p fr hmem hid
    rcases hc : cache.lookup id with - | cached
    · have hst : cacheStatus fs cache id = CardCacheStatus.MissingFromCache := by
        simp only [cacheStatus, hc]
      rcases hfind : from_id fs id with - | card
      · simp only [try_get_ref, maybe_update, hst, hfind, hc] at hnone
        simp only [from_id, Option.map_eq_none'] at hfind
        have := List.find?_eq_none.mp hfind (p, fr) hmem
        simp [hid] at this
      · simp [try_get_ref, maybe_update, hst, hfind, lookup_cacheInsert] at hnone
    · rcases hf : fs.lookup cached.path with - | fr'
      · have hst : cacheStatus fs cache id = CardCacheStatus.FileMissing := by
          simp only [cacheStatus, hc, hf]
        rcases hfind : from_id fs id with - | card
        · simp [try_get_ref, maybe_update, hst, hfind, hc] at hnone
        · simp [try_get_ref, maybe_update, hst, hfind, lookup_cacheInsert] at hnone
      · by_cases hcmp : fr'.modified > cached.last_modified
        · have hst : cacheStatus fs cache id = CardCacheStatus.NeedsUpdate := by
            simp only [cacheStatus, hc, hf]
            simp [hcmp]
          have hfp : from_path fs cached.path =
              Option.some ⟨fr'.card.id, fr'.card.payload, cached.path, fr'.modified⟩ := by
            simp [from_path, hf]
          simp [try_get_ref, maybe_update, hst, hc, hfp, lookup_cacheInsert] at hnone
        · have hst : cacheStatus fs cache id = CardCacheStatus.UpToDate := by
            simp only [cacheStatus, hc, hf]
            simp [hcmp]
          simp [try_get_ref, maybe_update, hst, hc] at hnone

/-- Witness for claim C7: a cache entry for id 7 at path 5 recorded at time
3; with the file still at time 3 the snapshot is served unchanged, and with
the file touched to time 4 the reloaded snapshot (carrying time 4) is
returned. -/
theorem try_get_ref_spec_app :
    (([(7, ⟨7, 42, 5, 3⟩)] : Cache).lookup 7 = Option.some ⟨7, 42, 5, 3⟩ ∧
      ([(5, ⟨3, ⟨7, 42⟩⟩)] : FileSystem).lookup 5 = Option.some ⟨3, ⟨7, 42⟩⟩ ∧
      (3 : ℚ) ≤ 3 ∧
      try_get_ref [(5, ⟨3, ⟨7, 42⟩⟩)] [(7, ⟨7, 42, 5, 3⟩)] 7 =
        ([(7, ⟨7, 42, 5, 3⟩)], Option.some ⟨7, 42, 5, 3⟩)) ∧
    (([(5, ⟨4, ⟨7, 42⟩⟩)] : FileSystem).lookup 5 = Option.some ⟨4, ⟨7, 42⟩⟩ ∧
      (3 : ℚ) < 4 ∧
      try_get_ref [(5, ⟨4, ⟨7, 42⟩⟩)] [(7, ⟨7, 42, 5, 3⟩)] 7 =
        (cacheInsert [(7, ⟨7, 42, 5, 3⟩)] 7 ⟨7, 42, 5, 4⟩, Option.some ⟨7, 42, 5, 4⟩)) :=
  ⟨⟨rfl, rfl, le_refl 3,
      (try_get_ref_spec [(5, ⟨3, ⟨7, 42⟩⟩)] [(7, ⟨7, 42, 5, 3⟩)] 7).1
        ⟨7, 42, 5, 3⟩ ⟨3, ⟨7, 42⟩⟩ rfl rfl (le_refl 3)⟩,
    ⟨rfl, by norm_num,
      (try_get_ref_spec [(5, ⟨4, ⟨7, 42⟩⟩)] [(7, ⟨7, 42, 5, 3⟩)] 7).2.1
        ⟨7, 42, 5, 3⟩ ⟨4, ⟨7, 42⟩⟩ rfl rfl (by norm_num)⟩⟩

/-! ## `is_outdated` and the persist path (src/card/mod.rs lines 1095-1139)

The interaction of one loaded card with its backing file is embedded as a
two-component state: the card's in-memory `last_modified` and the file's
actual modification time.  The OS clock is assumed monotone, so any write
stamps the file with a time at least the file's current one. -/

/-- The in-memory `last_modified` of one loaded card together with the
backing file's actual modification time. -/
structure PersistState where
  mem : ℚ
  fileM : ℚ
deriving DecidableEq

/-- `SavedCard::is_outdated` (src/card/mod.rs lines 1095-1109): `Less` gives
true, `Equal` gives false, and `Greater` panics — embedded as `none`. -/
def is_outdated (s : PersistState) : Option Bool :=
  if s.mem < s.fileM then Option.some true
  else if s.mem = s.fileM then Option.some false
  else Option.none

/-- The events that can touch one card's file after it was loaded: an
external write to the file (`touch`), or `SavedCard::persist`
(src/card/mod.rs lines 1118-1139), which writes the file and then replaces
`self` by re-reading from disk, so the new in-memory `last_modified` equals
the new file time.  Writes never move the file time backwards. -/
inductive PersistStep : PersistState → PersistState → Prop where
  | touch (s : PersistState) (t : ℚ) : s.fileM ≤ t → PersistStep s ⟨s.mem, t⟩
  | persist (s : PersistState) (t : ℚ) : s.fileM ≤ t → PersistStep s ⟨t, t⟩

/-- Claim C8: starting from a freshly loaded card (in-memory value equal to
the file time), after any sequence of external touches and persists the
in-memory `last_modified` never exceeds the file's modification time, so
the panicking `Ordering::Greater` branch of `is_outdated` is unreachable,
and `is_outdated` is true exactly when the file is strictly newer. -/
theorem is_outdated_no_panic (s0 s : PersistState)
    (hload : s0.mem = s0.fileM)
    (hreach : Relation.ReflTransGen PersistStep s0 s) :
    s.mem ≤ s.fileM ∧
    is_outdated s ≠ Option.none ∧
    (is_outdated s = Option.some true ↔ s.mem < s.fileM) := by
  have hinv : s.mem ≤ s.fileM := by
    induction hreach with
    | refl => exact le_of_eq hload
    | tail hr hstep ih =>
      cases hstep with
      | touch t ht => exact le_trans ih ht
      | persist t ht => exact le_refl _
  refine ⟨hinv, ?_, ?_⟩
  · rcases lt_or_eq_of_le hinv with hlt | heq
    · simp [is_outdated, hlt]
    · simp [is_outdated, heq]
  · constructor
    · intro htrue
      by_contra hnot
      have heq : s.mem = s.fileM := le_antisymm hinv (not_lt.mp hnot)
      simp [is_outdated, heq, lt_irrefl] at htrue
    · intro hlt
      simp [is_outdated, hlt]

/-- Witness for claim C8: load at time 2 and persist at time 5. -/
theorem is_outdated_no_panic_app :
    (PersistState.mk 2 2).mem = (PersistState.mk 2 2).fileM ∧
    Relation.ReflTransGen PersistStep ⟨2, 2⟩ ⟨5, 5⟩ ∧
    ((PersistState.mk 5 5).mem ≤ (PersistState.mk 5 5).fileM ∧
      is_outdated ⟨5, 5⟩ ≠ Option.none ∧
      (is_outdated ⟨5, 5⟩ = Option.some true ↔
        (PersistState.mk 5 5).mem < (PersistState.mk 5 5).fileM)) :=
  ⟨rfl,
    Relation.ReflTransGen.single (PersistStep.persist ⟨2, 2⟩ 5 (by norm_num)),
    is_outdated_no_panic ⟨2, 2⟩ ⟨5, 5⟩ rfl
      (Relation.ReflTransGen.single (PersistStep.persist ⟨2, 2⟩ 5 (by norm_num)))⟩

/-! ## Self-dependency guards (src/card/mod.rs lines 990-997, src/lib.rs
lines 330-338)

The dependency bookkeeping state is embedded as two edge sets: the cards'
declared forward dependency edges and the location index's reverse
dependents edges. -/

/-- Forward dependency edges (card, dependency) and reverse dependents
edges (card, dependent). -/
structure DepState where
  deps : Finset (Id × Id)
  dependents : Finset (Id × Id)
deriving DecidableEq

/-- Modelled from the spec: `cache::add_dependent` is called from
`SavedCard::set_dependency` but its definition (the Card Location Index) is
not under src/.  Per spec section 4.3 it is idempotent, a no-op when
`of == dependent`, and otherwise records `dependent` in the dependents set
of `of` (resync and persistence are I/O outside this state). -/
def add_dependent (ofId dependent : Id) (st : DepState) : DepState :=
  if ofId = dependent then st
  else { st with dependents := insert (ofId, dependent) st.dependents }

/-- `SavedCard::set_dependency` (src/card/mod.rs lines 990-997): return
immediately when the target equals the card's own id; otherwise insert the
forward edge and record the reverse edge via `add_dependent(dependency,
self.id())`. -/
def set_dependency (cardId dependency : Id) (st : DepState) : DepState :=
  if cardId = dependency then st
  else
    add_dependent dependency cardId
      { st with deps := insert (cardId, dependency) st.deps }

/-- The top-level `set_dependency` (src/lib.rs lines 330-338): its own
self-guard before delegating to the card method. -/
def lib_set_dependency (cardId dependency : Id) (st : DepState) : DepState :=
  if cardId = dependency then st else set_dependency cardId dependency st

/-- No card is listed in its own dependencies or its own dependents. -/
def NoSelfEdge (st : DepState) : Prop :=
  ∀ x : Id, (x, x) ∉ st.deps ∧ (x, x) ∉ st.dependents

/-- Claim C9: adding a card as a dependent of itself is a no-op, the
dependency-setting paths return unchanged state when the target equals the
card's own id, and both operations preserve the invariant that no card is
listed in its own dependencies or dependents set. -/
theorem set_dependency_self_spec (st : DepState) (a c d : Id) :
    add_dependent a a st = st ∧
    set_dependency a a st = st ∧
    lib_set_dependency a a st = st ∧
    (NoSelfEdge st → NoSelfEdge (add_dependent c d st)) ∧
    (NoSelfEdge st → NoSelfEdge (set_dependency c d st)) := by
  refine ⟨by simp [add_dependent], by simp [set_dependency],
    by simp [lib_set_dependency, set_dependency], ?_, ?_⟩
  · intro hns x
    by_cases hcd : c = d
    · simp only [add_dependent, if_pos hcd]
      exact hns x
    · simp only [add_dependent, if_neg hcd]
      refine ⟨(hns x).1, ?_⟩
      simp only [Finset.mem_insert]
      rintro (hx | hx)
      · have : c = d := by
          have h1 : x = c := congrArg Prod.fst hx
          have h2 : x = d := congrArg Prod.snd hx
          rw [← h1, ← h2]
        exact hcd this
      · exact (hns x).2 hx
  · intro hns x
    by_cases hcd : c = d
    · simp only [set_dependency, if_pos hcd]
      exact hns x
    · simp only [set_dependency, if_neg hcd, add_dependent]
      by_cases hdc : d = c
      · exact absurd hdc.symm hcd
      · simp only [if_neg hdc, Finset.mem_insert]
        constructor
        · rintro (hx | hx)
          · have h1 : x = c := congrArg Prod.fst hx
            have h2 : x = d := congrArg Prod.snd hx
            exact hcd (h1 ▸ h2 ▸ rfl)
          · exact (hns x).1 hx
        · rintro (hx | hx)
          · have h1 : x = d := congrArg Prod.fst hx
            have h2 : x = c := congrArg Prod.snd hx
            exact hdc (h1 ▸ h2 ▸ rfl)
          · exact (hns x).2 hx

/-- Witness for claim C9 at the empty state with cards 0 and 1. -/
theorem set_dependency_self_spec_app :
    NoSelfEdge ⟨∅, ∅⟩ ∧
    add_dependent 3 3 ⟨∅, ∅⟩ = (⟨∅, ∅⟩ : DepState) ∧
    set_dependency 3 3 ⟨∅, ∅⟩ = (⟨∅, ∅⟩ : DepState) ∧
    NoSelfEdge (add_dependent 0 1 ⟨∅, ∅⟩) ∧
    NoSelfEdge (set_dependency 0 1 ⟨∅, ∅⟩) := by
  have hns : NoSelfEdge (⟨∅, ∅⟩ : DepState) := by
    intro x
    simp [NoSelfEdge]
  exact ⟨hns,
    (set_dependency_self_spec ⟨∅, ∅⟩ 3 0 1).1,
    (set_dependency_self_spec ⟨∅, ∅⟩ 3 0 1).2.1,
    (set_dependency_self_spec ⟨∅, ∅⟩ 3 0 1).2.2.2.1 hns,
    (set_dependency_self_spec ⟨∅, ∅⟩ 3 0 1).2.2.2.2 hns⟩

end Speki
